import Mathlib

/-!
# uz80as: diagnostics (src/err.c) and output file names (src/main.c)

A shallow embedding of the diagnostic printer, the error governor, the
source-line pointer renderer, the fail-fast resource guards and `mkfname`.

Conventions of the embedding.

* A C string argument is a `List Char`: the bytes found from the pointer on.
  The string ends at the first NUL, or at the end of the list (where the
  terminator is implicit).  Every function below stops at the terminator as
  the C code does, so no well-formedness hypothesis is needed.
* The process state holds the global `s_nerrors`, everything written so far to
  `stderr`, and the source context owned by the file-inclusion module.
* A procedure that may call `exit` returns a `Res`: either it returned to its
  caller, or the process exited with a status.  A procedure with no `exit` on
  any path returns the new state directly.
* A pointer into a string is the offset from the start of the string.
-/

set_option autoImplicit false

namespace Uz80as

/-! ## C strings -/

/-- The string terminator. -/
def NUL : Char := '\x00'

/-- The characters of a C string: what precedes the first NUL. -/
def cstr : List Char → List Char
  | [] => []
  | c :: t => if c = NUL then [] else c :: cstr t

/-- Libc `strlen`: the number of characters before the terminator. -/
def strlen : List Char → Nat
  | [] => 0
  | c :: t => if c = NUL then 0 else strlen t + 1

/-- Reading `p[i]`: the character at offset `i`; at the end of the list the
(implicit) terminator is read. -/
def charAt (p : List Char) (i : Nat) : Char := p.getD i NUL

/-- Libc `isprint` in the "C" locale (the program never calls `setlocale`):
the characters from space to tilde. -/
def isprint (c : Char) : Bool := decide (0x20 ≤ c.toNat) && decide (c.toNat ≤ 0x7e)

/-! ## Process state -/

/-- Modelled from the spec: an active source file of the file-inclusion module
(`struct` returned by `curfile()`, declared in incl.h which is not among the
sources): its name and its current line number. -/
structure SrcFile where
  name : List Char
  linenum : Int
  deriving DecidableEq, Repr

/-- The process state seen by err.c.  `s_nerrors` is a C `int`; it is kept as
an `Int` because every reachable value lies in `0 .. MAXERR`
(see `run_nerrors_le`), so the increment never overflows.  `files` is the
stack of active source files, innermost first. -/
structure State where
  s_nerrors : Int
  stderr : List Char
  files : List SrcFile
  deriving DecidableEq, Repr

/-- Status passed to libc `exit`. -/
inductive ExitStatus where
  | EXIT_SUCCESS
  | EXIT_FAILURE
  deriving DecidableEq, Repr

/-- Outcome of a procedure that may call `exit`: it returned a value, or the
process exited, or (main.c only) a store fell outside its block, which is
undefined behaviour in C. -/
inductive Res (α : Type) where
  | ret (a : α) (s : State)
  | exited (status : ExitStatus) (s : State)
  | outOfBounds (offset size : Nat) (s : State)
  deriving DecidableEq, Repr

/-- Max number of errors before halt. -/
def MAXERR : Int := 64

/-- Modelled from the spec: the program identity `PACKAGE` of config.h (not
among the sources), the fixed string naming the tool; the help text of main.c
names it uz80as. -/
def PACKAGE : List Char := "uz80as".toList

/-- Modelled from the spec: `nfiles()` of the file-inclusion module, the count
of active files. -/
def nfiles (s : State) : Int := s.files.length

/-- Modelled from the spec: `curfile()` of the file-inclusion module, the
innermost active file.  It is only called when `nfiles() > 0`. -/
def curfile (s : State) : SrcFile := s.files.headD ⟨[], 0⟩

/-! ## Writing to stderr -/

/-- Libc `putc(c, stderr)` and `fputc(c, stderr)`. -/
def putc (c : Char) (s : State) : State := { s with stderr := s.stderr ++ [c] }

/-- Libc `fputs(str, stderr)`. -/
def fputs (str : List Char) (s : State) : State :=
  { s with stderr := s.stderr ++ cstr str }

/-- An argument of a printf-style call. -/
inductive Arg where
  | str (p : List Char)
  | int (n : Int)
  | chr (c : Char)
  deriving DecidableEq, Repr

/-- What `%d` prints for an `int`. -/
def decimal (n : Int) : List Char :=
  if n < 0 then '-' :: Nat.toDigits 10 n.natAbs else Nat.toDigits 10 n.natAbs

/-- Libc printf formatting, for the conversions this program uses
(`%s`, `%d`, `%c`, `%%`).  `pending` says that a `%` was just read.  Any other
conversion, or one whose argument is missing or of the wrong kind, is
undefined in C; the model then copies the directive. -/
def formatGo : Bool → List Char → List Arg → List Char
  | _, [], _ => []
  | false, c :: t, args =>
    if c = NUL then []
    else if c = '%' then formatGo true t args
    else c :: formatGo false t args
  | true, c :: t, args =>
    if c = NUL then ['%']
    else if c = '%' then '%' :: formatGo false t args
    else
      match c, args with
      | 's', Arg.str p :: rest => cstr p ++ formatGo false t rest
      | 'd', Arg.int n :: rest => decimal n ++ formatGo false t rest
      | 'c', Arg.chr x :: rest => x :: formatGo false t rest
      | _, _ => '%' :: c :: formatGo false t args

/-- The text a printf-style call produces. -/
def format (fmt : List Char) (args : List Arg) : List Char := formatGo false fmt args

/-- Libc `fprintf(stderr, fmt, ...)` and `vfprintf(stderr, fmt, args)`. -/
def fprintf (fmt : List Char) (args : List Arg) (s : State) : State :=
  { s with stderr := s.stderr ++ format fmt args }

/-! ## err.c

The translation marker `_( )` comes from a header that is not among the
sources; it is the parameter `tr` of every procedure that uses it. -/

/-- Source `eprfl`. -/
def eprfl (s : State) : State :=
  fprintf "%s:%d: ".toList [Arg.str (curfile s).name, Arg.int (curfile s).linenum] s

/-- Source `eprwarn`. -/
def eprwarn (tr : List Char → List Char) (s : State) : State :=
  putc ' ' (fputs (tr "warning:".toList) s)

/-- Print the program name on stderr. -/
def eprogname (s : State) : State := fprintf (PACKAGE ++ ": ".toList) [] s

/-- Increments the number of errors, and exit with failure if maximum number
of errors allowed is reached. -/
def newerr (tr : List Char → List Char) (s : State) : Res Unit :=
  let s1 : State := { s with s_nerrors := s.s_nerrors + 1 }
  if s1.s_nerrors ≥ MAXERR then
    Res.exited ExitStatus.EXIT_FAILURE
      (fprintf (tr "exiting: too many errors".toList) [] (eprogname s1))
  else
    Res.ret () s1

/-- Source `evprint`.  The template `ecode` is never NULL (the assertion of
the source): it is a list here. -/
def evprint (tr : List Char → List Char) (warn : Int) (ecode : List Char)
    (args : List Arg) (s : State) : State :=
  let s1 := if nfiles s > 0 then eprfl s else eprogname s
  let s2 := if warn ≠ 0 then eprwarn tr s1 else s1
  fprintf ecode args s2

/-- Prints only the printable characters, the rest as space. -/
def eprint_printable : List Char → State → State
  | [], s => s
  | c :: t, s =>
    if c = NUL then s
    else if isprint c then eprint_printable t (putc c s)
    else eprint_printable t (putc ' ' s)

/-- The marker loop of `eprcol`: `while (line != q) { putc(' ', stderr); line++; }`
where `dist` is `q - line`. -/
def eprcolLoop : Nat → State → State
  | 0, s => s
  | dist + 1, s => eprcolLoop dist (putc ' ' s)

/-- Prints the line and a marker pointing to the character `q` inside line;
`q` is given as the offset `col` from `line`. -/
def eprcol (line : List Char) (col : Nat) (s : State) : State :=
  let s1 := putc ' ' s
  let s2 := eprint_printable line s1
  let s3 := fputs "\n ".toList s2
  let s4 := eprcolLoop col s3
  fputs "^\n".toList s4

/-- Like fprintf but prints to stderr.  If we are parsing any file, print
first the file and the line.  If not, print first the program name. -/
def eprint (tr : List Char → List Char) (ecode : List Char) (args : List Arg)
    (s : State) : State :=
  evprint tr 0 ecode args s

/-- Same as eprint, but print "warning: " before ecode str. -/
def wprint (tr : List Char → List Char) (ecode : List Char) (args : List Arg)
    (s : State) : State :=
  evprint tr 1 ecode args s

/-- Call malloc, but if no memory, print that error and exit with failure.
`p` is what `malloc(n)` returned: `none` for NULL. -/
def emalloc {α : Type} (tr : List Char → List Char) (p : Option α) (s : State) : Res α :=
  match p with
  | none =>
    Res.exited ExitStatus.EXIT_FAILURE (eprint tr (tr "not enough memory\n".toList) [] s)
  | some b => Res.ret b s

/-- Call realloc, but if no memory, print that error and exit with failure.
`p` is what `realloc(p, n)` returned: `none` for NULL. -/
def erealloc {α : Type} (tr : List Char → List Char) (p : Option α) (s : State) : Res α :=
  match p with
  | none =>
    Res.exited ExitStatus.EXIT_FAILURE (eprint tr (tr "not enough memory\n".toList) [] s)
  | some b => Res.ret b s

/-- Call fopen, but if any error, print it and exit with failure.
`fp` is what `fopen(fname, ops)` returned: `none` for NULL. -/
def efopen {α : Type} (tr : List Char → List Char) (fname : List Char) (fp : Option α)
    (s : State) : Res α :=
  match fp with
  | none =>
    Res.exited ExitStatus.EXIT_FAILURE
      (eprint tr (tr "cannot open file %s\n".toList) [Arg.str fname] s)
  | some f => Res.ret f s

/-! ## Sequences of calls -/

/-- A call made by a collaborator of err.c, or a change of the source context
made by the file-inclusion module between two calls. -/
inductive Call where
  | newerr
  | eprint (ecode : List Char) (args : List Arg)
  | wprint (ecode : List Char) (args : List Arg)
  | context (files : List SrcFile)
  deriving DecidableEq, Repr

/-- One call. -/
def step (tr : List Char → List Char) : Call → State → Res Unit
  | Call.newerr, s => newerr tr s
  | Call.eprint ecode args, s => Res.ret () (eprint tr ecode args s)
  | Call.wprint ecode args, s => Res.ret () (wprint tr ecode args s)
  | Call.context files, s => Res.ret () { s with files := files }

/-- The calls in order; nothing runs after `exit`. -/
def run (tr : List Char → List Char) : List Call → State → Res Unit
  | [], s => Res.ret () s
  | c :: cs, s =>
    match step tr c s with
    | Res.ret _ s1 => run tr cs s1
    | Res.exited st s1 => Res.exited st s1
    | Res.outOfBounds o n s1 => Res.outOfBounds o n s1

/-- The number of `newerr` calls of a sequence. -/
def countNewerr : List Call → Nat
  | [] => 0
  | Call.newerr :: cs => countNewerr cs + 1
  | _ :: cs => countNewerr cs

/-- The state at process start: no error, nothing printed, no active file. -/
def initState : State := ⟨0, [], []⟩

/-! ## main.c

A block returned by `malloc(n)` is a list of `n` bytes; a store is checked
against the size of the block.  The lengths are `size_t` in C and `Nat` here:
both strings lie in memory, so `alen + 1 + elen + 1` is far below the range of
`size_t`. -/

/-- Libc `malloc(n)`: NULL when no memory is available, else a block of `n`
bytes whose contents are indeterminate (`junk`). -/
def malloc (avail : Bool) (junk : Nat → Char) (n : Nat) : Option (List Char) :=
  if avail then some ((List.range n).map junk) else none

/-- The store `b[i] = c`: the offset is returned as an error when it lies
outside the block. -/
def store (b : List Char) (i : Nat) (c : Char) : Except Nat (List Char) :=
  if i < b.length then Except.ok (b.set i c) else Except.error i

/-- Libc `strcpy(b + off, src)`: copies the characters of `src` and then its
terminator. -/
def strcpy (b : List Char) (off : Nat) : List Char → Except Nat (List Char)
  | [] => store b off NUL
  | c :: t =>
    if c = NUL then store b off NUL
    else
      match store b off c with
      | Except.ok b1 => strcpy b1 (off + 1) t
      | Except.error i => Except.error i

/-- The scan of `mkfname`: `while (q > fname && *q != '.') q--;` where `q` is
the offset from `fname`. -/
def scanDot (fname : List Char) : Nat → Nat
  | 0 => 0
  | q + 1 => if charAt fname (q + 1) ≠ '.' then scanDot fname q else q + 1

/-- The size `mkfname` computes for its block: `alen + 1 + elen + 1`, with
`alen` as it stands after `if (q != fname) alen = q - fname;`. -/
def mkfnameAlen (fname : List Char) : Nat :=
  let alen := strlen fname
  let q := scanDot fname alen
  if q ≠ 0 then q else alen

/-- Allocate a new string which is `fname` with its extension substituted by
`ext`.  If `fname` has no extension, a dot and `ext` are appended.  The result
is the block the returned pointer points to. -/
def mkfname (tr : List Char → List Char) (avail : Bool) (junk : Nat → Char)
    (fname ext : List Char) (s : State) : Res (List Char) :=
  let alen := mkfnameAlen fname
  let elen := strlen ext
  match emalloc tr (malloc avail junk (alen + 1 + elen + 1)) s with
  | Res.exited st s1 => Res.exited st s1
  | Res.outOfBounds o n s1 => Res.outOfBounds o n s1
  | Res.ret b s1 =>
    match strcpy b 0 fname with
    | Except.error i => Res.outOfBounds i b.length s1
    | Except.ok b1 =>
      match store b1 alen '.' with
      | Except.error i => Res.outOfBounds i b.length s1
      | Except.ok b2 =>
        match strcpy b2 (alen + 1) ext with
        | Except.error i => Res.outOfBounds i b.length s1
        | Except.ok b3 => Res.ret b3 s1

/-! ## The words of the spec -/

/-- The location text of the spec: "<filename>:<linenum>: " of the innermost
active file when there is one, the program name followed by ": " otherwise. -/
def specLead (s : State) : List Char :=
  match s.files with
  | [] => PACKAGE ++ ": ".toList
  | f :: _ => cstr f.name ++ ':' :: (decimal f.linenum ++ ": ".toList)

/-- The text of the spec for the warning token: the localized "warning:"
followed by a space, in warning mode only. -/
def specWarn (tr : List Char → List Char) (warn : Int) : List Char :=
  if warn ≠ 0 then cstr (tr "warning:".toList) ++ [' '] else []

/-- The first line of the spec for the pointer renderer: the contents of the
line with every printable character unchanged and every non-printable character
replaced by one space. -/
def printableOrSpace (line : List Char) : List Char :=
  (cstr line).map (fun c => if isprint c then c else ' ')

/-- What a call wrote: the text of stderr after the call, less the text that
was there before it. -/
def written (before after : State) : List Char := after.stderr.drop before.stderr.length

/-- The first line of an output: what precedes its first newline. -/
def firstLine (out : List Char) : List Char := out.takeWhile (fun c => c != '\n')

/-- The second line of an output. -/
def secondLine (out : List Char) : List Char :=
  firstLine (out.drop ((firstLine out).length + 1))

/-- The number of spaces that open a line. -/
def leadingSpaces (l : List Char) : Nat := (l.takeWhile (fun c => c == ' ')).length

/-- The split of a file name at its last dot: the part before the dot and the
part after it (the extension); `none` when the name holds no dot. -/
def splitLastDot : List Char → Option (List Char × List Char)
  | [] => none
  | c :: t =>
    match splitLastDot t with
    | some (stem, x) => some (c :: stem, x)
    | none => if c = '.' then some ([], t) else none

/-- The result of `mkfname` in the words of its contract: the part of the name
before the dot of its extension, followed by a dot and `ext`, when the name has
an extension; the whole name followed by a dot and `ext` when it has none. -/
def specMkfname (fname ext : List Char) : List Char :=
  match splitLastDot (cstr fname) with
  | some (stem, _) => stem ++ '.' :: cstr ext
  | none => cstr fname ++ '.' :: cstr ext

/-- The extension `mkfname` replaces: the part after the last dot, when that
dot is not the first character of the name; nothing otherwise. -/
def replacedExtension (fname : List Char) : List Char :=
  match splitLastDot (cstr fname) with
  | some (stem, x) => if stem = [] then [] else x
  | none => []

/-- The amended contract of `mkfname`: as `specMkfname`, but a name whose only
dot is its first character counts as a name without extension. -/
def amendedMkfname (fname ext : List Char) : List Char :=
  match splitLastDot (cstr fname) with
  | some (stem, _) =>
    if stem = [] then cstr fname ++ '.' :: cstr ext else stem ++ '.' :: cstr ext
  | none => cstr fname ++ '.' :: cstr ext

/-! ## Basic facts about the printing procedures -/

theorem format_noArgs_plain (l : List Char) (hN : NUL ∉ l) (hP : '%' ∉ l) (args : List Arg) :
    format l args = l := by
  unfold format
  induction l with
  | nil => rfl
  | cons c t ih =>
    simp only [List.mem_cons, not_or] at hN hP
    have h1 : ¬ c = NUL := fun h => hN.1 h.symm
    have h2 : ¬ c = '%' := fun h => hP.1 h.symm
    simp [formatGo, h1, h2, ih hN.2 hP.2]

theorem format_PACKAGE : format (PACKAGE ++ ": ".toList) [] = "uz80as: ".toList := by
  decide

theorem eprogname_eq (s : State) :
    eprogname s = { s with stderr := s.stderr ++ "uz80as: ".toList } := by
  simp only [eprogname, fprintf, format_PACKAGE]

theorem format_eprfl (name : List Char) (n : Int) :
    format "%s:%d: ".toList [Arg.str name, Arg.int n]
      = cstr name ++ ':' :: (decimal n ++ ": ".toList) := by
  rfl

theorem eprfl_eq (n : Int) (out : List Char) (f : SrcFile) (rest : List SrcFile) :
    eprfl ⟨n, out, f :: rest⟩
      = ⟨n, out ++ (cstr f.name ++ ':' :: (decimal f.linenum ++ ": ".toList)), f :: rest⟩ := by
  simp only [eprfl, fprintf, curfile, format_eprfl, List.headD_cons]

theorem eprwarn_eq (tr : List Char → List Char) (s : State) :
    eprwarn tr s = { s with stderr := s.stderr ++ (cstr (tr "warning:".toList) ++ [' ']) } := by
  simp [eprwarn, putc, fputs]

theorem evprint_s_nerrors (tr : List Char → List Char) (warn : Int) (ecode : List Char)
    (args : List Arg) (s : State) :
    (evprint tr warn ecode args s).s_nerrors = s.s_nerrors := by
  unfold evprint
  by_cases h1 : nfiles s > 0 <;> by_cases h2 : warn ≠ 0 <;>
    simp [h1, h2, fprintf, eprwarn, putc, fputs, eprfl, eprogname]

theorem evprint_files (tr : List Char → List Char) (warn : Int) (ecode : List Char)
    (args : List Arg) (s : State) :
    (evprint tr warn ecode args s).files = s.files := by
  unfold evprint
  by_cases h1 : nfiles s > 0 <;> by_cases h2 : warn ≠ 0 <;>
    simp [h1, h2, fprintf, eprwarn, putc, fputs, eprfl, eprogname]

theorem evprint_stderr (tr : List Char → List Char) (warn : Int) (ecode : List Char)
    (args : List Arg) (s : State) :
    (evprint tr warn ecode args s).stderr
      = s.stderr ++ specLead s ++ specWarn tr warn ++ format ecode args := by
  obtain ⟨n, out, files⟩ := s
  cases files with
  | nil =>
    by_cases h2 : warn = 0
    · simp only [evprint, nfiles, specLead, specWarn, eprogname_eq, eprwarn_eq, fprintf]
      simp [h2, PACKAGE]
    · simp only [evprint, nfiles, specLead, specWarn, eprogname_eq, eprwarn_eq, fprintf]
      simp [h2, PACKAGE]
  | cons f rest =>
    have hpos : nfiles ⟨n, out, f :: rest⟩ > 0 := by
      simp only [nfiles, List.length_cons]; omega
    by_cases h2 : warn = 0
    · simp only [evprint, hpos, specLead, specWarn, eprfl_eq, eprwarn_eq, fprintf]
      simp [h2]
    · simp only [evprint, hpos, specLead, specWarn, eprfl_eq, eprwarn_eq, fprintf]
      simp [h2]

theorem evprint_eq (tr : List Char → List Char) (warn : Int) (ecode : List Char)
    (args : List Arg) (s : State) :
    evprint tr warn ecode args s
      = ⟨s.s_nerrors, s.stderr ++ specLead s ++ specWarn tr warn ++ format ecode args, s.files⟩ := by
  have h1 := evprint_s_nerrors tr warn ecode args s
  have h2 := evprint_stderr tr warn ecode args s
  have h3 := evprint_files tr warn ecode args s
  cases h : evprint tr warn ecode args s with
  | mk a b c =>
    rw [h] at h1 h2 h3
    simp only at h1 h2 h3
    rw [h1, h2, h3]

theorem newerr_eq (tr : List Char → List Char) (s : State) :
    newerr tr s =
      if s.s_nerrors + 1 ≥ MAXERR then
        Res.exited ExitStatus.EXIT_FAILURE
          ⟨s.s_nerrors + 1,
            s.stderr ++ "uz80as: ".toList ++ format (tr "exiting: too many errors".toList) [],
            s.files⟩
      else Res.ret () ⟨s.s_nerrors + 1, s.stderr, s.files⟩ := by
  simp only [newerr, eprogname_eq, fprintf]

theorem run_append_ret (tr : List Char → List Char) (cs ds : List Call) :
    ∀ (s s1 : State), run tr cs s = Res.ret () s1 → run tr (cs ++ ds) s = run tr ds s1 := by
  induction cs with
  | nil =>
    intro s s1 h
    simp only [run, Res.ret.injEq, true_and] at h
    simp [h]
  | cons c cs ih =>
    intro s s1 h
    simp only [run, List.cons_append] at h ⊢
    cases hc : step tr c s with
    | ret a s2 =>
      rw [hc] at h
      simp only at h ⊢
      exact ih s2 s1 h
    | exited st s2 => rw [hc] at h; simp at h
    | outOfBounds o n s2 => rw [hc] at h; simp at h

theorem run_count (tr : List Char → List Char) (cs : List Call) :
    ∀ (s : State), s.s_nerrors + (countNewerr cs : Int) < MAXERR →
      ∃ s1, run tr cs s = Res.ret () s1 ∧ s1.s_nerrors = s.s_nerrors + countNewerr cs := by
  induction cs with
  | nil => intro s _; exact ⟨s, rfl, by simp [countNewerr]⟩
  | cons c cs ih =>
    intro s h
    cases c with
    | newerr =>
      simp only [countNewerr, Nat.cast_add, Nat.cast_one] at h ⊢
      have hlt : ¬ (s.s_nerrors + 1 ≥ MAXERR) := by
        have : (0 : Int) ≤ (countNewerr cs : Int) := Int.ofNat_nonneg _
        omega
      have hstep : step tr Call.newerr s = Res.ret () ⟨s.s_nerrors + 1, s.stderr, s.files⟩ := by
        simp only [step, newerr_eq, hlt, if_false]
      obtain ⟨s1, h1, h2⟩ := ih ⟨s.s_nerrors + 1, s.stderr, s.files⟩ (by simp only; omega)
      refine ⟨s1, ?_, ?_⟩
      · simp only [run, hstep]; exact h1
      · rw [h2]; simp only; omega
    | eprint ecode args =>
      simp only [countNewerr] at h ⊢
      obtain ⟨s1, h1, h2⟩ := ih (eprint tr ecode args s)
        (by simp only [eprint, evprint_s_nerrors]; exact h)
      refine ⟨s1, ?_, ?_⟩
      · simp only [run, step]; exact h1
      · rw [h2]; simp only [eprint, evprint_s_nerrors]
    | wprint ecode args =>
      simp only [countNewerr] at h ⊢
      obtain ⟨s1, h1, h2⟩ := ih (wprint tr ecode args s)
        (by simp only [wprint, evprint_s_nerrors]; exact h)
      refine ⟨s1, ?_, ?_⟩
      · simp only [run, step]; exact h1
      · rw [h2]; simp only [wprint, evprint_s_nerrors]
    | context files =>
      simp only [countNewerr] at h ⊢
      obtain ⟨s1, h1, h2⟩ := ih { s with files := files } h
      refine ⟨s1, ?_, ?_⟩
      · simp only [run, step]; exact h1
      · rw [h2]

/-- Every state reached from a start with `0 ≤ s_nerrors < MAXERR` keeps the
count below `MAXERR` while the process runs, and the process exits with the
count equal to `MAXERR`: the `int` never overflows. -/
theorem run_nerrors_le (tr : List Char → List Char) (cs : List Call) :
    ∀ (s : State), 0 ≤ s.s_nerrors → s.s_nerrors < MAXERR →
      (∃ s1, run tr cs s = Res.ret () s1 ∧ 0 ≤ s1.s_nerrors ∧ s1.s_nerrors < MAXERR) ∨
      (∃ s1, run tr cs s = Res.exited ExitStatus.EXIT_FAILURE s1 ∧ s1.s_nerrors = MAXERR) := by
  induction cs with
  | nil => intro s h0 h1; exact Or.inl ⟨s, rfl, h0, h1⟩
  | cons c cs ih =>
    intro s h0 h1
    cases c with
    | newerr =>
      by_cases hge : s.s_nerrors + 1 ≥ MAXERR
      · refine Or.inr ⟨⟨s.s_nerrors + 1,
            s.stderr ++ "uz80as: ".toList ++ format (tr "exiting: too many errors".toList) [],
            s.files⟩, ?_, ?_⟩
        · simp only [run, step, newerr_eq, hge, if_true]
        · simp only; omega
      · have hstep : step tr Call.newerr s = Res.ret () ⟨s.s_nerrors + 1, s.stderr, s.files⟩ := by
          simp only [step, newerr_eq, hge, if_false]
        simp only [run, hstep]
        exact ih ⟨s.s_nerrors + 1, s.stderr, s.files⟩ (by simp only; omega) (by simp only; omega)
    | eprint ecode args =>
      simp only [run, step]
      exact ih _ (by simp only [eprint, evprint_s_nerrors]; exact h0)
        (by simp only [eprint, evprint_s_nerrors]; exact h1)
    | wprint ecode args =>
      simp only [run, step]
      exact ih _ (by simp only [wprint, evprint_s_nerrors]; exact h0)
        (by simp only [wprint, evprint_s_nerrors]; exact h1)
    | context files =>
      simp only [run, step]
      exact ih _ h0 h1

/-! ## The error governor -/

/-- C1: from a state with error count 0, any sequence of calls holding N
`newerr` calls with N < MAXERR (interleaved with any number of warning reports,
and also with error reports and changes of the source context) returns without
the process exiting, and the final error count is N; a warning report never
changes the error count. -/
theorem newerr_below_threshold (tr : List Char → List Char) (cs : List Call) (s : State)
    (h0 : s.s_nerrors = 0) (hN : (countNewerr cs : Int) < MAXERR) :
    (∃ s1, run tr cs s = Res.ret () s1 ∧ s1.s_nerrors = countNewerr cs) ∧
    (∀ (ecode : List Char) (args : List Arg) (s0 : State),
      (wprint tr ecode args s0).s_nerrors = s0.s_nerrors) := by
  refine ⟨?_, ?_⟩
  · obtain ⟨s1, h1, h2⟩ := run_count tr cs s (by rw [h0]; simpa using hN)
    exact ⟨s1, h1, by rw [h2, h0]; simp⟩
  · intro ecode args s0
    simp only [wprint, evprint_s_nerrors]

/-- Witness of C1: two errors among three warnings, from the start state. -/
theorem newerr_below_threshold_witness :
    initState.s_nerrors = 0 ∧
    ((countNewerr [Call.wprint "w\n".toList [], Call.newerr, Call.wprint "w\n".toList [],
        Call.wprint "w\n".toList [], Call.newerr] : Nat) : Int) < MAXERR ∧
    ∃ s1, run id [Call.wprint "w\n".toList [], Call.newerr, Call.wprint "w\n".toList [],
        Call.wprint "w\n".toList [], Call.newerr] initState = Res.ret () s1 ∧
      s1.s_nerrors = 2 :=
  ⟨rfl, by decide,
    (newerr_below_threshold id [Call.wprint "w\n".toList [], Call.newerr,
      Call.wprint "w\n".toList [], Call.wprint "w\n".toList [], Call.newerr] initState rfl
      (by decide)).1⟩

/-- C2: from a state with error count 0, after any calls holding MAXERR - 1 = 63
`newerr` calls (which all return), the next `newerr` call does not return: the
process exits with EXIT_FAILURE, the error count is 64, and what the call
appended to stderr is exactly the program name with ": " followed by the
(localized) message "exiting: too many errors", printed once. -/
theorem newerr_at_threshold (tr : List Char → List Char) (cs : List Call) (s : State)
    (h0 : s.s_nerrors = 0) (hN : countNewerr cs = 63) :
    ∃ s1, run tr cs s = Res.ret () s1 ∧
      run tr (cs ++ [Call.newerr]) s =
        Res.exited ExitStatus.EXIT_FAILURE
          ⟨64, s1.stderr ++ (PACKAGE ++ ": ".toList ++
              format (tr "exiting: too many errors".toList) []), s1.files⟩ ∧
      format "exiting: too many errors".toList [] = "exiting: too many errors".toList := by
  obtain ⟨s1, h1, h2⟩ := run_count tr cs s (by rw [h0, hN]; decide)
  refine ⟨s1, h1, ?_, by decide⟩
  rw [run_append_ret tr cs [Call.newerr] s s1 h1]
  have h64 : s1.s_nerrors + 1 = 64 := by rw [h2, h0, hN]; rfl
  have hge : s1.s_nerrors + 1 ≥ MAXERR := by rw [h64]; decide
  have hnew : newerr tr s1 = Res.exited ExitStatus.EXIT_FAILURE
      ⟨64, s1.stderr ++ "uz80as: ".toList ++ format (tr "exiting: too many errors".toList) [],
        s1.files⟩ := by
    rw [newerr_eq, if_pos hge, h64]
  simp only [run, step, hnew]
  simp [PACKAGE]

/-- Witness of C2: 64 calls of `newerr` from the start state, with the identity
localization. -/
theorem newerr_at_threshold_witness :
    initState.s_nerrors = 0 ∧ countNewerr (List.replicate 63 Call.newerr) = 63 ∧
    ∃ s1, run id (List.replicate 63 Call.newerr) initState = Res.ret () s1 ∧
      run id (List.replicate 63 Call.newerr ++ [Call.newerr]) initState =
        Res.exited ExitStatus.EXIT_FAILURE
          ⟨64, s1.stderr ++ (PACKAGE ++ ": ".toList ++
              format (id "exiting: too many errors".toList) []), s1.files⟩ ∧
      format "exiting: too many errors".toList [] = "exiting: too many errors".toList :=
  ⟨rfl, by decide,
    newerr_at_threshold id (List.replicate 63 Call.newerr) initState rfl (by decide)⟩

/-! ## The diagnostic printer -/

/-- C3: for every template, argument list and mode, what a report call appends
to stderr begins with "<filename>:<linenum>: " of the innermost active file
when the source context has one (a.asm:7: for file a.asm at line 7), and with
the program name followed by ": " when it has none; the source context is read
at each call, so two consecutive reports under different contexts each carry
the location of their own context. -/
theorem evprint_location (tr : List Char → List Char) (warn : Int) (ecode : List Char)
    (args : List Arg) (n : Int) (out : List Char) (f : SrcFile) (rest : List SrcFile) :
    (evprint tr warn ecode args ⟨n, out, f :: rest⟩).stderr
        = out ++ (cstr f.name ++ ":".toList ++ decimal f.linenum ++ ": ".toList)
            ++ (specWarn tr warn ++ format ecode args) ∧
    (evprint tr warn ecode args ⟨n, out, []⟩).stderr
        = out ++ (PACKAGE ++ ": ".toList) ++ (specWarn tr warn ++ format ecode args) ∧
    (evprint tr warn ecode args ⟨n, out, ⟨"a.asm".toList, 7⟩ :: rest⟩).stderr
        = out ++ "a.asm:7: ".toList ++ (specWarn tr warn ++ format ecode args) ∧
    (evprint tr warn ecode args ⟨n, out, []⟩).stderr
        = out ++ "uz80as: ".toList ++ (specWarn tr warn ++ format ecode args) ∧
    run tr [Call.context (f :: rest), Call.eprint ecode args, Call.context [],
        Call.wprint ecode args] ⟨n, out, []⟩
      = Res.ret () ⟨n, out
          ++ (cstr f.name ++ ":".toList ++ decimal f.linenum ++ ": ".toList) ++ format ecode args
          ++ (PACKAGE ++ ": ".toList) ++ (cstr (tr "warning:".toList) ++ [' '])
          ++ format ecode args, []⟩ := by
  refine ⟨?_, ?_, ?_, ?_, ?_⟩
  · rw [evprint_stderr]; simp [specLead]
  · rw [evprint_stderr]; simp [specLead]
  · rw [evprint_stderr]; simp [specLead, cstr, NUL, decimal, Nat.toDigits, Nat.toDigitsCore,
      Nat.digitChar]
  · rw [evprint_stderr]; simp [specLead, PACKAGE]
  · simp only [run, step, eprint, wprint, evprint_eq]
    simp [specLead, specWarn]

/-- Counterexample to C4 as stated: an error report from the start state
returns with the error count still 0, and the process has not exited. -/
theorem eprint_counts_refuted :
    ¬ ∀ (tr : List Char → List Char) (ecode : List Char) (args : List Arg) (s : State),
      (∃ s1, step tr (Call.eprint ecode args) s = Res.ret () s1 ∧
          s1.s_nerrors = s.s_nerrors + 1) ∨
      (∃ st s1, step tr (Call.eprint ecode args) s = Res.exited st s1) := by
  intro h
  rcases h id "bad\n".toList [] initState with ⟨s1, h1, h2⟩ | ⟨st, s1, h1⟩
  · simp only [step, Res.ret.injEq, true_and] at h1
    rw [← h1] at h2
    simp only [eprint, evprint_s_nerrors, initState] at h2
    omega
  · simp [step] at h1

/-- C4, amended: an error report never consults the error governor.  For
every state and template `eprint` returns to its caller with the error count
and the source context unchanged; the count changes only in `newerr`, which
adds exactly one on each call, whether it returns or exits. -/
theorem eprint_keeps_count (tr : List Char → List Char) (ecode : List Char)
    (args : List Arg) (s : State) :
    step tr (Call.eprint ecode args) s
      = Res.ret () ⟨s.s_nerrors, s.stderr ++ specLead s ++ format ecode args, s.files⟩ ∧
    (newerr tr s = Res.ret () ⟨s.s_nerrors + 1, s.stderr, s.files⟩ ∨
      ∃ out, newerr tr s = Res.exited ExitStatus.EXIT_FAILURE ⟨s.s_nerrors + 1, out, s.files⟩) := by
  refine ⟨?_, ?_⟩
  · simp only [step, eprint, evprint_eq]
    simp [specWarn]
  · rw [newerr_eq]
    by_cases hge : s.s_nerrors + 1 ≥ MAXERR
    · rw [if_pos hge]; exact Or.inr ⟨_, rfl⟩
    · rw [if_neg hge]; exact Or.inl rfl

/-! ## The fail-fast guards -/

theorem format_not_enough_memory :
    format "not enough memory\n".toList [] = "not enough memory\n".toList := by
  decide

theorem format_cannot_open (fname : List Char) :
    format "cannot open file %s\n".toList [Arg.str fname]
      = "cannot open file ".toList ++ cstr fname ++ "\n".toList := by
  show _ = "cannot open file ".toList ++ (cstr fname ++ "\n".toList)
  rfl

/-- C8: each guard returns to its caller exactly when the wrapped primitive
succeeded, and then returns the primitive's result with the state (output and
error count) untouched; when the primitive failed the process exits with
EXIT_FAILURE after one error-mode diagnostic was appended to stderr (the
location, then the localized "not enough memory" line for `emalloc` and
`erealloc`, the localized "cannot open file %s" line formatted with the path
for `efopen`, which prints the path literally), and the error count is
unchanged. -/
theorem guards_fail_fast {α : Type} (tr : List Char → List Char) (r : Option α) (a : α)
    (fname : List Char) (s : State) :
    (emalloc tr (some a) s = Res.ret a s ∧ erealloc tr (some a) s = Res.ret a s ∧
      efopen tr fname (some a) s = Res.ret a s) ∧
    (emalloc tr (none : Option α) s = Res.exited ExitStatus.EXIT_FAILURE
        ⟨s.s_nerrors, s.stderr ++ specLead s ++ format (tr "not enough memory\n".toList) [],
          s.files⟩ ∧
      erealloc tr (none : Option α) s = Res.exited ExitStatus.EXIT_FAILURE
        ⟨s.s_nerrors, s.stderr ++ specLead s ++ format (tr "not enough memory\n".toList) [],
          s.files⟩ ∧
      efopen tr fname (none : Option α) s = Res.exited ExitStatus.EXIT_FAILURE
        ⟨s.s_nerrors, s.stderr ++ specLead s ++
          format (tr "cannot open file %s\n".toList) [Arg.str fname], s.files⟩) ∧
    (format "not enough memory\n".toList [] = "not enough memory\n".toList ∧
      format "cannot open file %s\n".toList [Arg.str fname]
        = "cannot open file ".toList ++ cstr fname ++ "\n".toList) ∧
    (((∃ b s1, emalloc tr r s = Res.ret b s1) ↔ r.isSome = true) ∧
      ((∃ b s1, erealloc tr r s = Res.ret b s1) ↔ r.isSome = true) ∧
      ((∃ b s1, efopen tr fname r s = Res.ret b s1) ↔ r.isSome = true)) := by
  refine ⟨⟨rfl, rfl, rfl⟩, ⟨?_, ?_, ?_⟩, ⟨format_not_enough_memory, format_cannot_open fname⟩,
    ⟨?_, ?_, ?_⟩⟩
  · simp only [emalloc, eprint, evprint_eq]; simp [specWarn]
  · simp only [erealloc, eprint, evprint_eq]; simp [specWarn]
  · simp only [efopen, eprint, evprint_eq]; simp [specWarn]
  · cases r <;> simp [emalloc]
  · cases r <;> simp [erealloc]
  · cases r <;> simp [efopen]

/-! ## The source-line pointer renderer -/

theorem cstr_length (l : List Char) : (cstr l).length = strlen l := by
  induction l with
  | nil => rfl
  | cons c t ih =>
    by_cases h : c = NUL <;> simp [cstr, strlen, h, ih]

theorem printableOrSpace_length (line : List Char) :
    (printableOrSpace line).length = strlen line := by
  simp [printableOrSpace, cstr_length]

theorem eprint_printable_eq (line : List Char) :
    ∀ (s : State), eprint_printable line s
      = { s with stderr := s.stderr ++ printableOrSpace line } := by
  induction line with
  | nil => intro s; simp [eprint_printable, printableOrSpace, cstr]
  | cons c t ih =>
    intro s
    by_cases h : c = NUL
    · simp [eprint_printable, printableOrSpace, cstr, h]
    · by_cases hp : isprint c = true
      · simp [eprint_printable, printableOrSpace, cstr, h, hp, ih, putc]
      · simp [eprint_printable, printableOrSpace, cstr, h, hp, ih, putc]

theorem eprcolLoop_eq (dist : Nat) :
    ∀ (s : State), eprcolLoop dist s
      = { s with stderr := s.stderr ++ List.replicate dist ' ' } := by
  induction dist with
  | zero => intro s; simp [eprcolLoop]
  | succ n ih =>
    intro s
    simp only [eprcolLoop, ih, putc, List.replicate_succ]
    simp

theorem eprcol_eq (line : List Char) (col : Nat) (s : State) :
    eprcol line col s
      = { s with stderr := s.stderr ++
          (' ' :: printableOrSpace line ++ '\n' :: ' ' :: (List.replicate col ' ' ++ ['^', '\n'])) } := by
  simp only [eprcol, putc, fputs, eprint_printable_eq, eprcolLoop_eq]
  simp [cstr, NUL]

theorem written_append (s : State) (n : Int) (x : List Char) (fs : List SrcFile) :
    written s ⟨n, s.stderr ++ x, fs⟩ = x := by
  simp [written]

theorem newline_not_mem_printableOrSpace (line : List Char) :
    '\n' ∉ printableOrSpace line := by
  intro h
  simp only [printableOrSpace, List.mem_map] at h
  obtain ⟨c, _, hc⟩ := h
  by_cases hp : isprint c = true
  · rw [if_pos hp] at hc
    rw [hc] at hp
    exact absurd hp (by decide)
  · rw [if_neg hp] at hc
    exact absurd hc (by decide)

theorem firstLine_append (x y : List Char) (hx : '\n' ∉ x) :
    firstLine (x ++ '\n' :: y) = x := by
  unfold firstLine
  induction x with
  | nil => simp
  | cons c t ih =>
    simp only [List.mem_cons, not_or] at hx
    have hc : (c != '\n') = true := by
      simp only [bne_iff_ne, ne_eq]
      exact fun h => hx.1 h.symm
    simp only [List.cons_append, List.takeWhile_cons, hc, if_true, ih hx.2]

theorem secondLine_append (x y z : List Char) (hx : '\n' ∉ x) (hy : '\n' ∉ y) :
    secondLine (x ++ '\n' :: (y ++ '\n' :: z)) = y := by
  unfold secondLine
  rw [firstLine_append x _ hx]
  have : (x ++ '\n' :: (y ++ '\n' :: z)).drop (x.length + 1) = y ++ '\n' :: z := by
    rw [show x ++ '\n' :: (y ++ '\n' :: z) = (x ++ ['\n']) ++ (y ++ '\n' :: z) by simp]
    exact List.drop_left' (by simp)
  rw [this, firstLine_append y z hy]

theorem newline_not_mem_marker (col : Nat) :
    '\n' ∉ ' ' :: (List.replicate col ' ' ++ ['^']) := by
  intro h
  simp only [List.mem_cons, List.mem_append, List.mem_replicate, List.mem_singleton,
    List.not_mem_nil, or_false] at h
  rcases h with h | ⟨_, h⟩ | h <;> exact absurd h (by decide)

theorem eprcol_written (line : List Char) (col : Nat) (s : State) :
    written s (eprcol line col s)
      = (' ' :: printableOrSpace line) ++ '\n' :: ((' ' :: (List.replicate col ' ' ++ ['^']))
          ++ '\n' :: []) := by
  rw [eprcol_eq]
  simp [written]

theorem eprcol_firstLine (line : List Char) (col : Nat) (s : State) :
    firstLine (written s (eprcol line col s)) = ' ' :: printableOrSpace line := by
  rw [eprcol_written]
  apply firstLine_append
  intro h
  simp only [List.mem_cons] at h
  rcases h with h | h
  · exact absurd h (by decide)
  · exact newline_not_mem_printableOrSpace line h

theorem eprcol_secondLine (line : List Char) (col : Nat) (s : State) :
    secondLine (written s (eprcol line col s)) = ' ' :: (List.replicate col ' ' ++ ['^']) := by
  rw [eprcol_written]
  apply secondLine_append
  · intro h
    simp only [List.mem_cons] at h
    rcases h with h | h
    · exact absurd h (by decide)
    · exact newline_not_mem_printableOrSpace line h
  · exact newline_not_mem_marker col

theorem leadingSpaces_marker (k : Nat) :
    leadingSpaces (List.replicate k ' ' ++ ['^']) = k := by
  unfold leadingSpaces
  induction k with
  | zero => simp [List.takeWhile]
  | succ n ih => simp [List.replicate_succ, List.takeWhile, ih]

theorem printableOrSpace_take_drop (line : List Char) :
    ∀ (col : Nat), col ≤ strlen line →
      printableOrSpace (line.take col) ++ printableOrSpace (line.drop col)
        = printableOrSpace line := by
  induction line with
  | nil => intro col _; simp [printableOrSpace, cstr]
  | cons c t ih =>
    intro col h
    cases col with
    | zero => simp [printableOrSpace, cstr]
    | succ k =>
      by_cases hc : c = NUL
      · simp [strlen, hc] at h
      · simp only [strlen, hc, if_false, Nat.add_le_add_iff_right] at h
        have := ih k h
        simp only [printableOrSpace, List.take_succ_cons, List.drop_succ_cons, cstr, hc,
          if_false, List.map_cons, List.cons_append] at this ⊢
        rw [this]

theorem strlen_take (line : List Char) :
    ∀ (col : Nat), col ≤ strlen line → strlen (line.take col) = col := by
  induction line with
  | nil => intro col h; simp [strlen] at h; simp [h, strlen]
  | cons c t ih =>
    intro col h
    cases col with
    | zero => simp [strlen]
    | succ k =>
      by_cases hc : c = NUL
      · simp [strlen, hc] at h
      · simp only [strlen, hc, if_false, Nat.add_le_add_iff_right] at h
        simp [strlen, hc, ih k h]

theorem leadingSpaces_secondLine (line : List Char) (col : Nat) (s : State) :
    leadingSpaces (secondLine (written s (eprcol line col s))) = col + 1 := by
  rw [eprcol_secondLine]
  have := leadingSpaces_marker (col + 1)
  simpa [List.replicate_succ] using this

theorem printableOrSpace_drop (line : List Char) (col : Nat) (h : col ≤ strlen line) :
    (printableOrSpace line).drop col = printableOrSpace (line.drop col) := by
  have h1 := printableOrSpace_take_drop line col h
  have h2 : (printableOrSpace (line.take col)).length = col := by
    rw [printableOrSpace_length, strlen_take line col h]
  rw [← h1]
  exact List.drop_left' h2

/-- Counterexample to C5 as stated: for the line "ab\tcd" and column 3 the
first line printed is " ab cd", with a leading space, not "ab cd". -/
theorem eprcol_first_line_refuted :
    firstLine (written initState (eprcol "ab\tcd".toList 3 initState)) = " ab cd".toList ∧
    printableOrSpace "ab\tcd".toList = "ab cd".toList ∧
    firstLine (written initState (eprcol "ab\tcd".toList 3 initState))
      ≠ printableOrSpace "ab\tcd".toList := by
  decide

/-- C5, amended: for every line and every column with column ≤ length of the
line, `eprcol` writes exactly two lines.  The first is one space followed by
the contents of the line, every printable character unchanged and every
non-printable character replaced by one space.  The second is one space,
then `column` spaces, then the caret; so the caret stands under the character
printed for position `column`.  For "ab\tcd" and column 3 the lines are
" ab cd" and "    ^". -/
theorem eprcol_lines (line : List Char) (col : Nat) (s : State) (h : col ≤ strlen line) :
    written s (eprcol line col s)
      = firstLine (written s (eprcol line col s)) ++ '\n' ::
          (secondLine (written s (eprcol line col s)) ++ ['\n']) ∧
    firstLine (written s (eprcol line col s)) = ' ' :: printableOrSpace line ∧
    secondLine (written s (eprcol line col s)) = ' ' :: (List.replicate col ' ' ++ ['^']) ∧
    (firstLine (written s (eprcol line col s))).drop
        (leadingSpaces (secondLine (written s (eprcol line col s))))
      = printableOrSpace (line.drop col) ∧
    firstLine (written s (eprcol "ab\tcd".toList 3 s)) = " ab cd".toList ∧
    secondLine (written s (eprcol "ab\tcd".toList 3 s)) = "    ^".toList := by
  refine ⟨?_, eprcol_firstLine line col s, eprcol_secondLine line col s, ?_, ?_, ?_⟩
  · rw [eprcol_firstLine, eprcol_secondLine, eprcol_written]
  · rw [leadingSpaces_secondLine, eprcol_firstLine, List.drop_succ_cons]
    exact printableOrSpace_drop line col h
  · rw [eprcol_firstLine]; decide
  · rw [eprcol_secondLine]; decide

/-- Witness of C5, amended: the line "ab\tcd" and column 3. -/
theorem eprcol_lines_witness :
    3 ≤ strlen "ab\tcd".toList ∧
    firstLine (written initState (eprcol "ab\tcd".toList 3 initState))
      = ' ' :: printableOrSpace "ab\tcd".toList ∧
    secondLine (written initState (eprcol "ab\tcd".toList 3 initState))
      = ' ' :: (List.replicate 3 ' ' ++ ['^']) :=
  ⟨by decide,
    (eprcol_lines "ab\tcd".toList 3 initState (by decide)).2.1,
    (eprcol_lines "ab\tcd".toList 3 initState (by decide)).2.2.1⟩

/-- C6: for every line and every column with column ≤ length of the line, the
number of spaces `eprcol` prints before the caret on the second output line
equals the number of characters it had printed on the first output line when
its printing loop reached the character at position `column`.  `mid` is the
state at that moment: the first line is what was written up to `mid` followed
by what is printed for the rest of the line. -/
theorem eprcol_alignment (line : List Char) (col : Nat) (s : State) (h : col ≤ strlen line) :
    eprcol line col s
      = fputs "^\n".toList (eprcolLoop col (fputs "\n ".toList
          (eprint_printable (line.drop col) (eprint_printable (line.take col) (putc ' ' s))))) ∧
    firstLine (written s (eprcol line col s))
      = written s (eprint_printable (line.take col) (putc ' ' s))
          ++ printableOrSpace (line.drop col) ∧
    secondLine (written s (eprcol line col s))
      = List.replicate (written s (eprint_printable (line.take col) (putc ' ' s))).length ' '
          ++ ['^'] ∧
    leadingSpaces (secondLine (written s (eprcol line col s)))
      = (written s (eprint_printable (line.take col) (putc ' ' s))).length := by
  have hmid : written s (eprint_printable (line.take col) (putc ' ' s))
      = ' ' :: printableOrSpace (line.take col) := by
    simp [eprint_printable_eq, putc, written]
  have hlen : (written s (eprint_printable (line.take col) (putc ' ' s))).length = col + 1 := by
    rw [hmid, List.length_cons, printableOrSpace_length, strlen_take line col h]
  refine ⟨?_, ?_, ?_, ?_⟩
  · simp only [eprcol, eprint_printable_eq, putc, fputs, eprcolLoop_eq]
    simp only [List.append_assoc, List.singleton_append, List.cons_append,
      printableOrSpace_take_drop line col h]
  · rw [eprcol_firstLine, hmid, List.cons_append, printableOrSpace_take_drop line col h]
  · rw [eprcol_secondLine, hlen, List.replicate_succ, List.cons_append]
  · rw [leadingSpaces_secondLine, hlen]

/-- Witness of C6: the line "ab\tcd" and column 3; four characters precede the
fourth character of the line on the first output line, and four spaces precede
the caret. -/
theorem eprcol_alignment_witness :
    3 ≤ strlen "ab\tcd".toList ∧
    leadingSpaces (secondLine (written initState (eprcol "ab\tcd".toList 3 initState)))
      = (written initState
          (eprint_printable ("ab\tcd".toList.take 3) (putc ' ' initState))).length :=
  ⟨by decide, (eprcol_alignment "ab\tcd".toList 3 initState (by decide)).2.2.2⟩

/-- Counterexample to C7 as stated: for the line "ab" the caret of column 5
is not where the caret of column 2, the end of the line, is: five spaces
follow the indent instead of two. -/
theorem eprcol_past_end_refuted :
    secondLine (written initState (eprcol "ab".toList 5 initState)) = "      ^".toList ∧
    secondLine (written initState (eprcol "ab".toList (strlen "ab".toList) initState))
      = "   ^".toList ∧
    secondLine (written initState (eprcol "ab".toList 5 initState))
      ≠ secondLine (written initState (eprcol "ab".toList (strlen "ab".toList) initState)) := by
  decide

/-- C7, amended: for every line and every column past the end of the line,
`eprcol` returns, and it does not clamp the column: after the one-space indent
it prints `column` spaces before the caret, so the caret stands
`column - length` positions to the right of the position that follows the last
character of the printed line, and not where it stands for column = length. -/
theorem eprcol_past_end (line : List Char) (col : Nat) (s : State) (h : strlen line < col) :
    written s (eprcol line col s)
      = (' ' :: printableOrSpace line) ++ '\n' ::
          ((' ' :: (List.replicate col ' ' ++ ['^'])) ++ ['\n']) ∧
    leadingSpaces (secondLine (written s (eprcol line col s)))
      = (firstLine (written s (eprcol line col s))).length + (col - strlen line) ∧
    leadingSpaces (secondLine (written s (eprcol line (strlen line) s)))
      = (firstLine (written s (eprcol line (strlen line) s))).length ∧
    secondLine (written s (eprcol line col s))
      ≠ secondLine (written s (eprcol line (strlen line) s)) := by
  refine ⟨eprcol_written line col s, ?_, ?_, ?_⟩
  · rw [leadingSpaces_secondLine, eprcol_firstLine, List.length_cons, printableOrSpace_length]
    omega
  · rw [leadingSpaces_secondLine, eprcol_firstLine, List.length_cons, printableOrSpace_length]
  · intro heq
    have h1 := leadingSpaces_secondLine line col s
    have h2 := leadingSpaces_secondLine line (strlen line) s
    rw [heq, h2] at h1
    omega

/-- Witness of C7, amended: the line "ab" and column 5. -/
theorem eprcol_past_end_witness :
    strlen "ab".toList < 5 ∧
    leadingSpaces (secondLine (written initState (eprcol "ab".toList 5 initState)))
      = (firstLine (written initState (eprcol "ab".toList 5 initState))).length
          + (5 - strlen "ab".toList) :=
  ⟨by decide, (eprcol_past_end "ab".toList 5 initState (by decide)).2.1⟩

/-! ## Output file names -/

theorem splitLastDot_some (f : List Char) :
    ∀ (stem x : List Char), splitLastDot f = some (stem, x) →
      f = stem ++ '.' :: x ∧ '.' ∉ x ∧ splitLastDot x = none := by
  induction f with
  | nil => intro stem x h; simp [splitLastDot] at h
  | cons c t ih =>
    intro stem x h
    simp only [splitLastDot] at h
    cases ht : splitLastDot t with
    | some pr =>
      obtain ⟨st, y⟩ := pr
      rw [ht] at h
      simp only [Option.some.injEq, Prod.mk.injEq] at h
      obtain ⟨h1, h2, h3⟩ := ih st y ht
      rw [← h.1, ← h.2]
      exact ⟨by rw [h1]; rfl, h2, h3⟩
    | none =>
      rw [ht] at h
      by_cases hc : c = '.'
      · simp only [hc, if_true, Option.some.injEq, Prod.mk.injEq] at h
        rw [← h.1, ← h.2, hc]
        refine ⟨rfl, ?_, ht⟩
        clear ih h
        induction t with
        | nil => simp
        | cons d u ihu =>
          simp only [splitLastDot] at ht
          cases hu : splitLastDot u with
          | some pr => rw [hu] at ht; simp at ht
          | none =>
            rw [hu] at ht
            by_cases hd : d = '.'
            · simp [hd] at ht
            · simp only [List.mem_cons, not_or]
              exact ⟨fun h => hd h.symm, ihu hu⟩
      · simp [hc] at h

theorem splitLastDot_none (f : List Char) (h : splitLastDot f = none) : '.' ∉ f := by
  induction f with
  | nil => simp
  | cons c t ih =>
    simp only [splitLastDot] at h
    cases ht : splitLastDot t with
    | some pr => rw [ht] at h; simp at h
    | none =>
      rw [ht] at h
      by_cases hc : c = '.'
      · simp [hc] at h
      · simp only [List.mem_cons, not_or]
        exact ⟨fun h => hc h.symm, ih ht⟩

theorem charAt_cstr (l : List Char) :
    ∀ (i : Nat), i ≤ strlen l → charAt l i = charAt (cstr l) i := by
  induction l with
  | nil => intro i _; rfl
  | cons c t ih =>
    intro i h
    by_cases hc : c = NUL
    · simp only [strlen, hc, if_true, Nat.le_zero] at h
      simp [charAt, cstr, hc, h]
    · simp only [strlen, hc, if_false] at h
      cases i with
      | zero => simp [charAt, cstr, hc]
      | succ k =>
        have := ih k (by omega)
        simp only [charAt, cstr, hc, if_false, List.getD_cons_succ] at this ⊢
        exact this

theorem scanDot_cstr (l : List Char) :
    ∀ (q : Nat), q ≤ strlen l → scanDot l q = scanDot (cstr l) q := by
  intro q
  induction q with
  | zero => intro _; rfl
  | succ k ih =>
    intro h
    simp only [scanDot, charAt_cstr l (k + 1) h, ih (by omega)]

theorem scanDot_skip (f : List Char) (m : Nat) :
    ∀ (k : Nat), (∀ i, m < i → i ≤ m + k → charAt f i ≠ '.') →
      scanDot f (m + k) = scanDot f m := by
  intro k
  induction k with
  | zero => intro _; rfl
  | succ n ih =>
    intro h
    have h1 : charAt f (m + n + 1) ≠ '.' := h (m + n + 1) (by omega) (by omega)
    rw [show m + (n + 1) = (m + n) + 1 from rfl]
    simp only [scanDot, h1, ne_eq, not_false_eq_true, if_true]
    exact ih (fun i hi1 hi2 => h i hi1 (by omega))

theorem charAt_not_dot (x : List Char) (hx : '.' ∉ x) (j : Nat) : charAt x j ≠ '.' := by
  unfold charAt
  by_cases hj : j < x.length
  · rw [List.getD_eq_getElem x NUL hj]
    intro h
    exact hx (h ▸ List.getElem_mem hj)
  · rw [List.getD_eq_default x NUL (by omega)]
    decide

theorem scanDot_split (stem x : List Char) (hx : '.' ∉ x) :
    scanDot (stem ++ '.' :: x) (stem ++ '.' :: x).length = stem.length := by
  have hlen : (stem ++ '.' :: x).length = stem.length + (x.length + 1) := by simp
  rw [hlen, scanDot_skip]
  · cases hs : stem with
    | nil => rfl
    | cons a u =>
      have : charAt ((a :: u) ++ '.' :: x) (u.length + 1) = '.' := by
        unfold charAt
        rw [List.getD_append_right (a :: u) _ NUL (u.length + 1) (by simp)]
        simp
      simp only [List.length_cons, scanDot, this, ne_eq, not_true_eq_false, if_false]
  · intro i hi1 hi2
    have : charAt (stem ++ '.' :: x) i = charAt x (i - stem.length - 1) := by
      unfold charAt
      rw [List.getD_append_right stem _ NUL i (by omega)]
      obtain ⟨j, hj⟩ : ∃ j, i - stem.length = j + 1 := ⟨i - stem.length - 1, by omega⟩
      rw [hj, List.getD_cons_succ]
      congr 1
    rw [this]
    exact charAt_not_dot x hx _

theorem scanDot_no_dot (f : List Char) (h : '.' ∉ f) : ∀ (q : Nat), scanDot f q = 0 := by
  intro q
  induction q with
  | zero => rfl
  | succ k ih =>
    simp only [scanDot, charAt_not_dot f h (k + 1), ne_eq, not_false_eq_true, if_true, ih]

theorem mkfnameAlen_eq (fname : List Char) :
    mkfnameAlen fname =
      match splitLastDot (cstr fname) with
      | some (stem, _) => if stem = [] then (cstr fname).length else stem.length
      | none => (cstr fname).length := by
  have h1 : scanDot fname (strlen fname) = scanDot (cstr fname) (strlen fname) :=
    scanDot_cstr fname (strlen fname) (Nat.le_refl _)
  have hl : (cstr fname).length = strlen fname := cstr_length fname
  simp only [mkfnameAlen, h1, hl]
  cases hs : splitLastDot (cstr fname) with
  | none =>
    simp only [scanDot_no_dot _ (splitLastDot_none _ hs), ne_eq, not_true_eq_false, if_false]
  | some pr =>
    obtain ⟨stem, x⟩ := pr
    obtain ⟨hf, hx, _⟩ := splitLastDot_some _ stem x hs
    have h2 := scanDot_split stem x hx
    rw [← hf, hl] at h2
    simp only [h2]
    by_cases he : stem = []
    · simp [he]
    · have : stem.length ≠ 0 := fun h => he (List.length_eq_zero.mp h)
      simp [he, this]

theorem store_append (pre rest : List Char) (d c : Char) :
    store (pre ++ d :: rest) pre.length c = Except.ok (pre ++ c :: rest) := by
  simp [store]

theorem store_at_end (pre : List Char) (c : Char) :
    store pre pre.length c = Except.error pre.length := by
  simp [store]

theorem strcpy_append (src : List Char) :
    ∀ (pre rest : List Char), strlen src + 1 ≤ rest.length →
      strcpy (pre ++ rest) pre.length src
        = Except.ok (pre ++ (cstr src ++ NUL :: rest.drop (strlen src + 1))) := by
  induction src with
  | nil =>
    intro pre rest h
    cases rest with
    | nil => simp at h
    | cons d r => simp [strcpy, strlen, cstr, store_append]
  | cons c t ih =>
    intro pre rest h
    cases rest with
    | nil => simp at h
    | cons d r =>
      by_cases hc : c = NUL
      · simp [strcpy, strlen, cstr, hc, store_append]
      · simp only [strlen, hc, if_false, List.length_cons, Nat.add_le_add_iff_right] at h
        have h1 := ih (pre ++ [c]) r h
        simp only [List.length_append, List.length_singleton, List.append_assoc,
          List.singleton_append] at h1
        simp only [strcpy, hc, if_false, store_append, h1, strlen, cstr, List.drop_succ_cons,
          List.cons_append]

theorem strcpy_overflow (src : List Char) :
    ∀ (pre rest : List Char), rest.length < strlen src + 1 →
      strcpy (pre ++ rest) pre.length src = Except.error (pre.length + rest.length) := by
  induction src with
  | nil =>
    intro pre rest h
    cases rest with
    | nil => simp [strcpy, store_at_end]
    | cons d r => simp [strlen] at h
  | cons c t ih =>
    intro pre rest h
    cases rest with
    | nil =>
      by_cases hc : c = NUL
      · simp [strcpy, hc, store_at_end]
      · simp [strcpy, hc, store_at_end]
    | cons d r =>
      by_cases hc : c = NUL
      · simp [strlen, hc] at h
      · simp only [strlen, hc, if_false, List.length_cons, Nat.add_lt_add_iff_right] at h
        have h1 := ih (pre ++ [c]) r h
        simp only [List.length_append, List.length_singleton, List.append_assoc,
          List.singleton_append] at h1
        simp only [strcpy, hc, if_false, store_append, h1, List.length_cons]
        congr 1
        omega

/-- The last two steps of `mkfname` on a block whose first `alen` bytes are `p`
and which has room for exactly the dot, `ext` and the terminator after them. -/
theorem mkfname_tail (p r1 ext : List Char) (d : Char) (h : r1.length = strlen ext + 1) :
    store (p ++ d :: r1) p.length '.' = Except.ok (p ++ '.' :: r1) ∧
    strcpy (p ++ '.' :: r1) (p.length + 1) ext = Except.ok (p ++ '.' :: (cstr ext ++ [NUL])) := by
  refine ⟨store_append p r1 d '.', ?_⟩
  have h1 := strcpy_append ext (p ++ ['.']) r1 (by omega)
  simp only [List.length_append, List.length_singleton, List.append_assoc,
    List.singleton_append] at h1
  rw [h1, List.drop_of_length_le (by omega)]

theorem malloc_length (junk : Nat → Char) (n : Nat) :
    ((List.range n).map junk).length = n := by
  simp

/-- The steps of `mkfname` once the block is there, when the first `alen`
characters of the name are `p` and the rest of the name, `d :: x`, is not
longer than the dot and `ext`. -/
theorem mkfname_steps (tr : List Char → List Char) (junk : Nat → Char) (fname ext : List Char)
    (s : State) (p x : List Char) (d : Char)
    (hA : mkfnameAlen fname = p.length)
    (hf : cstr fname ++ [NUL] = p ++ d :: x)
    (hx : x.length ≤ strlen ext + 1) :
    mkfname tr true junk fname ext s = Res.ret (p ++ '.' :: (cstr ext ++ [NUL])) s := by
  have hlen : strlen fname + 1 = p.length + (x.length + 1) := by
    have := congrArg List.length hf
    simpa [cstr_length] using this
  obtain ⟨b, hb, hbl⟩ : ∃ b, (List.range (p.length + 1 + strlen ext + 1)).map junk = b ∧
      b.length = p.length + 1 + strlen ext + 1 := ⟨_, rfl, malloc_length junk _⟩
  have h1 := strcpy_append fname [] b (by omega)
  simp only [List.nil_append, List.length_nil] at h1
  have h2 : cstr fname ++ NUL :: b.drop (strlen fname + 1)
      = p ++ d :: (x ++ b.drop (strlen fname + 1)) := by
    rw [show cstr fname ++ NUL :: b.drop (strlen fname + 1)
        = (cstr fname ++ [NUL]) ++ b.drop (strlen fname + 1) by simp, hf]
    simp
  rw [h2] at h1
  have h3 := mkfname_tail p (x ++ b.drop (strlen fname + 1)) ext d
    (by simp only [List.length_append, List.length_drop]; omega)
  simp only [mkfname, malloc, emalloc, if_true, hA, hb, h1, h3.1, h3.2]

theorem mkfname_ok (tr : List Char → List Char) (junk : Nat → Char) (fname ext : List Char)
    (s : State) (h : (replacedExtension fname).length ≤ strlen ext) :
    mkfname tr true junk fname ext s = Res.ret (amendedMkfname fname ext ++ [NUL]) s := by
  have hA := mkfnameAlen_eq fname
  unfold replacedExtension at h
  unfold amendedMkfname
  cases hs : splitLastDot (cstr fname) with
  | none =>
    rw [hs] at hA
    simp only at hA ⊢
    rw [mkfname_steps tr junk fname ext s (cstr fname) [] NUL hA rfl (by simp)]
    simp
  | some pr =>
    obtain ⟨stem, x⟩ := pr
    rw [hs] at hA h
    simp only at hA h ⊢
    by_cases he : stem = []
    · simp only [he, if_true] at hA ⊢
      rw [mkfname_steps tr junk fname ext s (cstr fname) [] NUL hA rfl (by simp)]
      simp
    · simp only [he, if_false] at hA h ⊢
      obtain ⟨hf, _, _⟩ := splitLastDot_some _ stem x hs
      rw [mkfname_steps tr junk fname ext s stem (x ++ [NUL]) '.' hA (by rw [hf]; simp)
        (by simp only [List.length_append, List.length_singleton]; omega)]
      simp

theorem mkfname_overflow (tr : List Char → List Char) (junk : Nat → Char) (fname ext : List Char)
    (s : State) (h : strlen ext < (replacedExtension fname).length) :
    mkfname tr true junk fname ext s
      = Res.outOfBounds (mkfnameAlen fname + 1 + strlen ext + 1)
          (mkfnameAlen fname + 1 + strlen ext + 1) s := by
  have hA := mkfnameAlen_eq fname
  unfold replacedExtension at h
  cases hs : splitLastDot (cstr fname) with
  | none => rw [hs] at h; simp at h
  | some pr =>
    obtain ⟨stem, x⟩ := pr
    rw [hs] at hA h
    simp only at hA h
    by_cases he : stem = []
    · simp [he] at h
    · simp only [he, if_false] at hA h
      obtain ⟨hf, _, _⟩ := splitLastDot_some _ stem x hs
      have hlen : strlen fname = stem.length + (x.length + 1) := by
        rw [← cstr_length, hf]; simp
      obtain ⟨b, hb, hbl⟩ : ∃ b, (List.range (stem.length + 1 + strlen ext + 1)).map junk = b ∧
          b.length = stem.length + 1 + strlen ext + 1 := ⟨_, rfl, malloc_length junk _⟩
      have h1 := strcpy_overflow fname [] b (by omega)
      simp only [List.nil_append, List.length_nil, Nat.zero_add] at h1
      simp only [mkfname, malloc, emalloc, if_true, hA, hb, h1, hbl]

/-- Counterexample to C9 as stated.  The name ".asm" has the extension "asm"
behind its dot and nothing before that dot, so the claim gives ".obj";
`mkfname` returns ".asm.obj".  For the name "a.text", whose extension is
longer than "obj", the claim gives "a.obj"; `mkfname` stores outside its block
before it can return. -/
theorem mkfname_spec_refuted :
    (mkfname id true (fun _ => 'x') ".asm".toList "obj".toList initState
        = Res.ret ".asm.obj\x00".toList initState ∧
      specMkfname ".asm".toList "obj".toList = ".obj".toList ∧
      mkfname id true (fun _ => 'x') ".asm".toList "obj".toList initState
        ≠ Res.ret (specMkfname ".asm".toList "obj".toList ++ [NUL]) initState) ∧
    (specMkfname "a.text".toList "obj".toList = "a.obj".toList ∧
      mkfname id true (fun _ => 'x') "a.text".toList "obj".toList initState
        ≠ Res.ret (specMkfname "a.text".toList "obj".toList ++ [NUL]) initState) := by
  decide

/-- C9, amended: for every file name and extension `ext` such that the
extension the name carries is not longer than `ext`, and once the block is
allocated, `mkfname` returns the name with that extension substituted by
`ext`.  A name has an extension when its last dot is not its first character:
the result is then the part before that dot, a dot and `ext`
(p.asm with obj gives p.obj).  A name with no dot, or whose only dot is its
first character, has none: the result is the whole name, a dot and `ext`.
The state is left as it was.  When `malloc` fails the process exits through
`emalloc`. -/
theorem mkfname_result (tr : List Char → List Char) (junk : Nat → Char) (fname ext : List Char)
    (s : State) (h : (replacedExtension fname).length ≤ strlen ext) :
    mkfname tr true junk fname ext s = Res.ret (amendedMkfname fname ext ++ [NUL]) s ∧
    mkfname tr true junk "p.asm".toList "obj".toList s = Res.ret "p.obj\x00".toList s ∧
    mkfname tr false junk fname ext s
      = Res.exited ExitStatus.EXIT_FAILURE
          (eprint tr (tr "not enough memory\n".toList) [] s) := by
  refine ⟨mkfname_ok tr junk fname ext s h, ?_, ?_⟩
  · rw [mkfname_ok tr junk "p.asm".toList "obj".toList s (by decide)]
    have : amendedMkfname "p.asm".toList "obj".toList ++ [NUL] = "p.obj\x00".toList := by decide
    rw [this]
  · simp only [mkfname, malloc, emalloc, Bool.false_eq_true, if_false]

/-- Witness of C9, amended: p.asm with obj. -/
theorem mkfname_result_witness :
    (replacedExtension "p.asm".toList).length ≤ strlen "obj".toList ∧
    mkfname id true (fun _ => 'x') "p.asm".toList "obj".toList initState
      = Res.ret (amendedMkfname "p.asm".toList "obj".toList ++ [NUL]) initState :=
  ⟨by decide,
    (mkfname_result id (fun _ => 'x') "p.asm".toList "obj".toList initState (by decide)).1⟩

/-- C10 fails on the code: for the name a.text and the extension obj the block
has 1 + 1 + 3 + 1 = 6 bytes, and the first `strcpy`, which copies the whole
name and its terminator (7 bytes), stores at offset 6, outside the block. -/
theorem mkfname_out_of_bounds :
    mkfnameAlen "a.text".toList + 1 + strlen "obj".toList + 1 = 6 ∧
    mkfname id true (fun _ => 'x') "a.text".toList "obj".toList initState
      = Res.outOfBounds 6 6 initState := by
  decide

end Uz80as
